import Mathlib

/-!
Shallow embedding of the heredity inference engine (src/heredity/heredity.py).

Modelling conventions:
* Python floats are embedded as exact rationals (ℚ); the program's constants
  are decimal literals, written here as the corresponding rationals.
* The pedigree dictionary is an association list from person name to record.
* Python sets of names are lists of names with membership tests; the set of
  factors built inside joint_probability is a list grown by insert-if-absent,
  matching Python set semantics (a set never holds duplicates).
* Python float division by zero raises ZeroDivisionError; normalize is
  therefore embedded as an Except-valued function.
-/

namespace Heredity

instance {ε α : Type} [DecidableEq ε] [DecidableEq α] : DecidableEq (Except ε α) := fun a b =>
  match a, b with
  | Except.ok x, Except.ok y =>
    if h : x = y then isTrue (by rw [h]) else isFalse (by intro hc; cases hc; exact h rfl)
  | Except.error x, Except.error y =>
    if h : x = y then isTrue (by rw [h]) else isFalse (by intro hc; cases hc; exact h rfl)
  | Except.ok _, Except.error _ => isFalse (by intro hc; cases hc)
  | Except.error _, Except.ok _ => isFalse (by intro hc; cases hc)

/-- One row of the pedigree dictionary: optional mother/father names and the
optional observed trait (None = unknown). -/
structure Person where
  mother : Option String
  father : Option String
  trait : Option Bool
deriving Repr, DecidableEq

/-- PROBS["gene"]: unconditional gene-count prior (keys 0, 1, 2).
Any other key is unreachable in the program (KeyError in Python). -/
def PROBS_gene : Nat → ℚ
  | 2 => 1/100
  | 1 => 3/100
  | 0 => 96/100
  | _ => 0

/-- PROBS["trait"]: probability of the trait value given gene count
(keys 0, 1, 2; other keys unreachable, KeyError in Python). -/
def PROBS_trait : Nat → Bool → ℚ
  | 2, true => 65/100
  | 2, false => 35/100
  | 1, true => 56/100
  | 1, false => 44/100
  | 0, true => 1/100
  | 0, false => 99/100
  | _, _ => 0

/-- PROBS["mutation"]. -/
def PROBS_mutation : ℚ := 1/100

/-- pass_down (heredity.py lines 153-164): probability that a parent with the
given gene count does (passing = true) or does not pass the variant down.
The Python function returns None when genes is not 0, 1 or 2; that branch is
unreachable (gene counts always come from the 2/1/0 membership chain), and is
embedded as 0. -/
def pass_down (genes : Nat) (passing : Bool) : ℚ :=
  if (genes = 2 ∧ passing) ∨ (genes = 0 ∧ ¬ passing) then 1 - PROBS_mutation
  else if (genes = 2 ∧ ¬ passing) ∨ (genes = 0 ∧ passing) then PROBS_mutation
  else if genes = 1 then 1/2
  else 0

/-- `2 if name in two_genes else 1 if name in one_gene else 0`. -/
def geneCount (one_gene two_genes : List String) (name : String) : Nat :=
  if name ∈ two_genes then 2 else if name ∈ one_gene then 1 else 0

/-- Python membership test `x in s` where x may be None (the sets hold only
strings, so `None in s` is False). -/
def optMem : Option String → List String → Bool
  | some n, s => decide (n ∈ s)
  | none, _ => false

/-- `2 if mother in two_genes else 1 if mother in one_gene else 0` where the
mother/father field may be None or a name absent from the sets. -/
def parentGeneCount (p : Option String) (one_gene two_genes : List String) : Nat :=
  if optMem p two_genes then 2 else if optMem p one_gene then 1 else 0

/-- The geneChance computation of the non-founder branch (heredity.py lines
185-193): both parents transmit (two genes), exactly one of two mutually
exclusive ways (one gene), or neither transmits (no gene). -/
def childGeneChance (one_gene two_genes : List String) (name : String)
    (mg fg : Nat) : ℚ :=
  if name ∈ two_genes then pass_down mg true * pass_down fg true
  else if name ∈ one_gene then
    pass_down mg true * pass_down fg false + pass_down mg false * pass_down fg true
  else pass_down mg false * pass_down fg false

/-- The factor contributed by one person inside joint_probability
(heredity.py lines 169-198): founder branch uses the prior, the other branch
combines the parents' pass_down probabilities. -/
def personFactor (one_gene two_genes have_trait : List String)
    (name : String) (pr : Person) : ℚ :=
  if pr.mother = none ∧ pr.father = none then
    PROBS_gene (geneCount one_gene two_genes name) *
      PROBS_trait (geneCount one_gene two_genes name) (decide (name ∈ have_trait))
  else
    childGeneChance one_gene two_genes name
        (parentGeneCount pr.mother one_gene two_genes)
        (parentGeneCount pr.father one_gene two_genes) *
      PROBS_trait (geneCount one_gene two_genes name) (decide (name ∈ have_trait))

/-- Python set.add: insert the element unless already present. -/
def setAdd (acc : List ℚ) (q : ℚ) : List ℚ :=
  if q ∈ acc then acc else acc ++ [q]

/-- The Python set `probabilities` built by joint_probability: the per-person
factors inserted one by one (duplicates collapse, as in a Python set). -/
def factorSet (people : List (String × Person))
    (one_gene two_genes have_trait : List String) : List ℚ :=
  people.foldl (fun acc np => setAdd acc (personFactor one_gene two_genes have_trait np.1 np.2)) []

/-- joint_probability (heredity.py lines 141-200):
`reduce(mul, probabilities, 1)` over the set of per-person factors. -/
def jointProbability (people : List (String × Person))
    (one_gene two_genes have_trait : List String) : ℚ :=
  (factorSet people one_gene two_genes have_trait).foldl (· * ·) 1

/-- powerset (heredity.py lines 129-138): all subsets of s, obtained by
chaining the combinations of every size r = 0 .. len s. -/
def powerset {α : Type} (s : List α) : List (List α) :=
  (List.range (s.length + 1)).flatMap fun r => List.sublistsLen r s

/-- The names of the pedigree (iteration order of the Python dict). -/
def names (people : List (String × Person)) : List String := people.map Prod.fst

/-- The evidence check of main (heredity.py lines 73-77): a trait set fails if
some person has a recorded trait different from membership in have_trait. -/
def failsEvidence (people : List (String × Person)) (have_trait : List String) : Bool :=
  people.any fun np =>
    match np.2.trait with
    | some b => b != decide (np.1 ∈ have_trait)
    | none => false

/-- Python set difference `names - one_gene`. -/
def setDiff (s t : List String) : List String :=
  s.filter fun n => !decide (n ∈ t)

/-- A hypothesis: the triple (have_trait, one_gene, two_genes). -/
abbrev Hyp := List String × List String × List String

/-- The full enumeration of main's three nested powerset loops, before the
evidence filter: have_trait over all subsets, one_gene over all subsets,
two_genes over all subsets of names - one_gene. -/
def allTriples (ns : List String) : List Hyp :=
  (powerset ns).flatMap fun ht =>
    (powerset ns).flatMap fun og =>
      (powerset (setDiff ns og)).map fun tg => (ht, og, tg)

/-- The admissible hypotheses main actually accumulates (lines 70-87): the
trait sets failing evidence are skipped (continue), all gene splits kept. -/
def hypotheses (people : List (String × Person)) : List Hyp :=
  (powerset (names people)).flatMap fun ht =>
    if failsEvidence people ht then []
    else
      (powerset (names people)).flatMap fun og =>
        (powerset (setDiff (names people) og)).map fun tg => (ht, og, tg)

/-- One person's row of the probabilities table: the gene distribution
(keys 2, 1, 0) and the trait distribution (keys True, False). -/
structure PersonProb where
  gene2 : ℚ
  gene1 : ℚ
  gene0 : ℚ
  traitTrue : ℚ
  traitFalse : ℚ
deriving Repr, DecidableEq

/-- The zero-filled table main builds before the loop (lines 52-66). -/
def initTable (ns : List String) : List (String × PersonProb) :=
  ns.map fun n => (n, ⟨0, 0, 0, 0, 0⟩)

/-- `probabilities[person]["gene"][genes] += p` (genes is 0, 1 or 2). -/
def addGene (pp : PersonProb) (g : Nat) (p : ℚ) : PersonProb :=
  if g = 2 then { pp with gene2 := pp.gene2 + p }
  else if g = 1 then { pp with gene1 := pp.gene1 + p }
  else { pp with gene0 := pp.gene0 + p }

/-- `probabilities[person]["trait"][person in have_trait] += p`. -/
def addTrait (pp : PersonProb) (t : Bool) (p : ℚ) : PersonProb :=
  if t then { pp with traitTrue := pp.traitTrue + p }
  else { pp with traitFalse := pp.traitFalse + p }

/-- update (heredity.py lines 203-216): add p to every person's hypothesized
gene bucket and trait bucket. -/
def update (tbl : List (String × PersonProb))
    (one_gene two_genes have_trait : List String) (p : ℚ) : List (String × PersonProb) :=
  tbl.map fun np =>
    (np.1, addTrait (addGene np.2 (geneCount one_gene two_genes np.1) p)
      (decide (np.1 ∈ have_trait)) p)

/-- The accumulation loop of main: fold update over all admissible
hypotheses, starting from the zero table. -/
def accumulate (people : List (String × Person)) : List (String × PersonProb) :=
  (hypotheses people).foldl
    (fun tbl h => update tbl h.2.1 h.2.2 h.1 (jointProbability people h.2.1 h.2.2 h.1))
    (initTable (names people))

/-- Sum of a person's gene distribution (dict insertion order 2, 1, 0). -/
def geneTotal (pp : PersonProb) : ℚ := pp.gene2 + pp.gene1 + pp.gene0

/-- Sum of a person's trait distribution. -/
def traitTotal (pp : PersonProb) : ℚ := pp.traitTrue + pp.traitFalse

/-- One person's step of normalize: divide each value by the distribution's
total; Python raises ZeroDivisionError when a total is 0.0, embedded as
Except.error. -/
def normalizePerson (pp : PersonProb) : Except String PersonProb :=
  if geneTotal pp = 0 ∨ traitTotal pp = 0 then Except.error "division by zero"
  else Except.ok
    { gene2 := pp.gene2 / geneTotal pp
      gene1 := pp.gene1 / geneTotal pp
      gene0 := pp.gene0 / geneTotal pp
      traitTrue := pp.traitTrue / traitTotal pp
      traitFalse := pp.traitFalse / traitTotal pp }

/-- normalize (heredity.py lines 219-230) over the whole table, person by
person; the first zero total aborts the loop with the ZeroDivisionError. -/
def normalize : List (String × PersonProb) →
    Except String (List (String × PersonProb))
  | [] => Except.ok []
  | np :: rest =>
    match normalizePerson np.2 with
    | Except.error e => Except.error e
    | Except.ok pp =>
      match normalize rest with
      | Except.error e => Except.error e
      | Except.ok rest' => Except.ok ((np.1, pp) :: rest')

/-- The computational core of main: accumulate then normalize
(I/O stripped). -/
def pipeline (people : List (String × Person)) :
    Except String (List (String × PersonProb)) :=
  normalize (accumulate people)

/-- A founder row: no parents, trait unknown. -/
def founderPerson : Person := ⟨none, none, none⟩

/-- Three-person pedigree: two founder parents and their child. -/
def threePersonPed : List (String × Person) :=
  [("m", founderPerson), ("f", founderPerson), ("c", ⟨some "m", some "f", none⟩)]

/-- A pedigree with a single founder whose trait is unobserved. -/
def singleFounderPed : List (String × Person) := [("p", founderPerson)]

/-- A malformed pedigree: the child has a mother but no father
(half-specified parent pair). -/
def halfSpecifiedPed : List (String × Person) :=
  [("m", founderPerson), ("c", ⟨some "m", none, none⟩)]

/-- A malformed pedigree: the only person's parent references "x" and "y"
resolve to no person in the pedigree. -/
def danglingPed : List (String × Person) := [("c", ⟨some "x", some "y", none⟩)]

/-- A table with two conflicting rows for one name (unreachable from a
Python dict, but expressible in the association-list embedding): every
trait set fails the evidence check, so every hypothesis is filtered out. -/
def conflictPed : List (String × Person) :=
  [("a", ⟨none, none, some true⟩), ("a", ⟨none, none, some false⟩)]

/-- The joint-probability mass accumulated over the admissible hypotheses. -/
def totalMass (people : List (String × Person)) : ℚ :=
  ((hypotheses people).map fun h => jointProbability people h.2.1 h.2.2 h.1).sum


/-! ## Helper lemmas -/

/-- A successful normalizePerson yields exactly-1 distribution totals. -/
lemma normalizePerson_ok {pp pp' : PersonProb}
    (h : normalizePerson pp = Except.ok pp') :
    geneTotal pp' = 1 ∧ traitTotal pp' = 1 := by
  unfold normalizePerson at h
  split at h
  · cases h
  · rename_i hcond
    push_neg at hcond
    cases h
    constructor
    · show pp.gene2 / geneTotal pp + pp.gene1 / geneTotal pp + pp.gene0 / geneTotal pp = 1
      rw [div_add_div_same, div_add_div_same]
      exact div_self hcond.1
    · show pp.traitTrue / traitTotal pp + pp.traitFalse / traitTotal pp = 1
      rw [div_add_div_same]
      exact div_self hcond.2

/-- Every entry of a successfully normalized table has totals exactly 1. -/
lemma normalize_ok_totals :
    ∀ (tbl tbl' : List (String × PersonProb)), normalize tbl = Except.ok tbl' →
      ∀ np ∈ tbl', geneTotal np.2 = 1 ∧ traitTotal np.2 = 1 := by
  intro tbl
  induction tbl with
  | nil =>
    intro tbl' h np hm
    cases h
    cases hm
  | cons hd rest ih =>
    intro tbl' h np hm
    unfold normalize at h
    split at h
    · cases h
    · split at h
      · cases h
      · cases h
        rcases List.mem_cons.mp hm with h1 | h1
        · subst h1
          exact normalizePerson_ok (by assumption)
        · exact ih _ (by assumption) np h1

/-- The two pass_down outcomes of one parent are complementary. -/
lemma pass_down_add_compl {g : Nat} (hg : g ≤ 2) :
    pass_down g true + pass_down g false = 1 := by
  interval_cases g <;> decide!

/-- The gene count taken from set membership is always 0, 1 or 2. -/
lemma geneCount_le_two (one_gene two_genes : List String) (n : String) :
    geneCount one_gene two_genes n ≤ 2 := by
  unfold geneCount
  split
  · exact Nat.le_refl 2
  · split <;> omega

/-- A parent's gene count taken from set membership is always 0, 1 or 2. -/
lemma parentGeneCount_le_two (p : Option String) (one_gene two_genes : List String) :
    parentGeneCount p one_gene two_genes ≤ 2 := by
  unfold parentGeneCount
  split
  · exact Nat.le_refl 2
  · split <;> omega

/-- pass_down outputs lie strictly between 0 and 1 on its reachable inputs. -/
lemma pass_down_bounds {g : Nat} (hg : g ≤ 2) (b : Bool) :
    0 < pass_down g b ∧ pass_down g b < 1 := by
  interval_cases g <;> cases b <;> exact ⟨by decide!, by decide!⟩

/-- The gene prior lies strictly between 0 and 1 on keys 0, 1, 2. -/
lemma PROBS_gene_bounds {g : Nat} (hg : g ≤ 2) :
    0 < PROBS_gene g ∧ PROBS_gene g < 1 := by
  interval_cases g <;> exact ⟨by decide!, by decide!⟩

/-- The trait likelihood lies strictly between 0 and 1 on keys 0, 1, 2. -/
lemma PROBS_trait_bounds {g : Nat} (hg : g ≤ 2) (b : Bool) :
    0 < PROBS_trait g b ∧ PROBS_trait g b < 1 := by
  interval_cases g <;> cases b <;> exact ⟨by decide!, by decide!⟩

/-- The child's gene chance lies strictly between 0 and 1. -/
lemma childGeneChance_bounds (one_gene two_genes : List String) (n : String)
    {mg fg : Nat} (hm : mg ≤ 2) (hf : fg ≤ 2) :
    0 < childGeneChance one_gene two_genes n mg fg ∧
      childGeneChance one_gene two_genes n mg fg < 1 := by
  have ha := pass_down_bounds hm true
  have ha' := pass_down_bounds hm false
  have hb := pass_down_bounds hf true
  have hb' := pass_down_bounds hf false
  have cm := pass_down_add_compl hm
  have cf := pass_down_add_compl hf
  unfold childGeneChance
  split
  · exact ⟨mul_pos ha.1 hb.1, by nlinarith [ha.1, ha.2, hb.1, hb.2]⟩
  · split
    · refine ⟨add_pos (mul_pos ha.1 hb'.1) (mul_pos ha'.1 hb.1), ?_⟩
      nlinarith [mul_pos ha.1 hb.1, mul_pos ha'.1 hb'.1]
    · exact ⟨mul_pos ha'.1 hb'.1, by nlinarith [ha'.1, ha'.2, hb'.1, hb'.2]⟩

/-- Every per-person factor lies strictly between 0 and 1. -/
lemma personFactor_bounds (one_gene two_genes have_trait : List String)
    (n : String) (pr : Person) :
    0 < personFactor one_gene two_genes have_trait n pr ∧
      personFactor one_gene two_genes have_trait n pr < 1 := by
  have hg := geneCount_le_two one_gene two_genes n
  have ht := PROBS_trait_bounds hg (decide (n ∈ have_trait))
  unfold personFactor
  split
  · have hp := PROBS_gene_bounds hg
    exact ⟨mul_pos hp.1 ht.1, by nlinarith [hp.1, hp.2, ht.1, ht.2]⟩
  · have hc := childGeneChance_bounds one_gene two_genes n
      (parentGeneCount_le_two pr.mother one_gene two_genes)
      (parentGeneCount_le_two pr.father one_gene two_genes)
    exact ⟨mul_pos hc.1 ht.1, by nlinarith [hc.1, hc.2, ht.1, ht.2]⟩

/-- Elements of a set-insert come from the old set or are the new element. -/
lemma mem_setAdd {acc : List ℚ} {q q' : ℚ} (h : q' ∈ setAdd acc q) :
    q' ∈ acc ∨ q' = q := by
  unfold setAdd at h
  split at h
  · exact Or.inl h
  · rcases List.mem_append.mp h with h1 | h1
    · exact Or.inl h1
    · exact Or.inr (List.mem_singleton.mp h1)

/-- A set-insert never produces the empty set. -/
lemma setAdd_ne_nil (acc : List ℚ) (q : ℚ) : setAdd acc q ≠ [] := by
  unfold setAdd
  split
  · exact List.ne_nil_of_mem (by assumption)
  · simp

/-- Any property of all inserted factors holds for the whole factor set. -/
lemma foldl_setAdd_forall {P : ℚ → Prop} (f : String × Person → ℚ) :
    ∀ (l : List (String × Person)) (acc : List ℚ),
      (∀ q ∈ acc, P q) → (∀ np ∈ l, P (f np)) →
      ∀ q ∈ l.foldl (fun a np => setAdd a (f np)) acc, P q := by
  intro l
  induction l with
  | nil => intro acc hacc _ q hq; exact hacc q hq
  | cons np rest ih =>
    intro acc hacc hl q hq
    refine ih (setAdd acc (f np)) ?_ (fun x hx => hl x (List.mem_cons_of_mem np hx)) q hq
    intro x hx
    rcases mem_setAdd hx with h | h
    · exact hacc x h
    · exact h ▸ hl np (List.mem_cons_self np rest)

/-- Folding set-inserts over a nonempty starting set stays nonempty. -/
lemma foldl_setAdd_ne_nil (f : String × Person → ℚ) :
    ∀ (l : List (String × Person)) (acc : List ℚ), acc ≠ [] →
      l.foldl (fun a np => setAdd a (f np)) acc ≠ [] := by
  intro l
  induction l with
  | nil => intro acc hacc; exact hacc
  | cons np rest ih =>
    intro acc _
    exact ih (setAdd acc (f np)) (setAdd_ne_nil acc (f np))

/-- Every element of the factor set is a per-person factor, hence in (0,1). -/
lemma factorSet_bounds (people : List (String × Person))
    (one_gene two_genes have_trait : List String) :
    ∀ q ∈ factorSet people one_gene two_genes have_trait, 0 < q ∧ q < 1 :=
  foldl_setAdd_forall _ people [] (fun _ hq => absurd hq (List.not_mem_nil _))
    (fun np _ => personFactor_bounds one_gene two_genes have_trait np.1 np.2)

/-- The factor set of a nonempty pedigree is nonempty. -/
lemma factorSet_ne_nil (np : String × Person) (rest : List (String × Person))
    (one_gene two_genes have_trait : List String) :
    factorSet (np :: rest) one_gene two_genes have_trait ≠ [] := by
  unfold factorSet
  rw [List.foldl_cons]
  exact foldl_setAdd_ne_nil _ rest _ (setAdd_ne_nil [] _)

/-- A product of rationals strictly between 0 and 1 is positive. -/
lemma list_prod_pos : ∀ l : List ℚ, (∀ q ∈ l, 0 < q) → 0 < l.prod := by
  intro l
  induction l with
  | nil => intro _; simp
  | cons a rest ih =>
    intro h
    rw [List.prod_cons]
    exact mul_pos (h a (List.mem_cons_self a rest))
      (ih fun q hq => h q (List.mem_cons_of_mem a hq))

/-- A product of rationals in (0,1] is at most 1. -/
lemma list_prod_le_one : ∀ l : List ℚ, (∀ q ∈ l, 0 < q ∧ q ≤ 1) → l.prod ≤ 1 := by
  intro l
  induction l with
  | nil => intro _; simp
  | cons a rest ih =>
    intro h
    rw [List.prod_cons]
    have ha := h a (List.mem_cons_self a rest)
    have hr : rest.prod ≤ 1 := ih fun q hq => h q (List.mem_cons_of_mem a hq)
    have hrp : 0 < rest.prod := list_prod_pos rest fun q hq => (h q (List.mem_cons_of_mem a hq)).1
    nlinarith

/-- A nonempty product of rationals strictly inside (0,1) stays below 1. -/
lemma list_prod_lt_one : ∀ l : List ℚ, l ≠ [] → (∀ q ∈ l, 0 < q ∧ q < 1) →
    l.prod < 1 := by
  intro l
  cases l with
  | nil => intro h; exact absurd rfl h
  | cons a rest =>
    intro _ h
    rw [List.prod_cons]
    have ha := h a (List.mem_cons_self a rest)
    have hr : rest.prod ≤ 1 :=
      list_prod_le_one rest fun q hq =>
        ⟨(h q (List.mem_cons_of_mem a hq)).1, le_of_lt (h q (List.mem_cons_of_mem a hq)).2⟩
    have hrp : 0 < rest.prod := list_prod_pos rest fun q hq => (h q (List.mem_cons_of_mem a hq)).1
    nlinarith

/-- joint_probability equals the product of the factor set. -/
lemma jointProbability_eq_prod (people : List (String × Person))
    (one_gene two_genes have_trait : List String) :
    jointProbability people one_gene two_genes have_trait =
      (factorSet people one_gene two_genes have_trait).prod := by
  unfold jointProbability
  rw [List.prod_eq_foldl]

/-- joint_probability is strictly positive on every input. -/
lemma jointProbability_pos (people : List (String × Person))
    (one_gene two_genes have_trait : List String) :
    0 < jointProbability people one_gene two_genes have_trait := by
  rw [jointProbability_eq_prod]
  exact list_prod_pos _ fun q hq =>
    (factorSet_bounds people one_gene two_genes have_trait q hq).1


/-- powerset is the chained-combinations enumeration, a permutation of the
standard sublists enumeration. -/
lemma powerset_perm {α : Type} (s : List α) : (powerset s).Perm s.sublists' :=
  List.range_bind_sublistsLen_perm s

/-- Membership in powerset is exactly being a sublist. -/
lemma mem_powerset {α : Type} {x s : List α} : x ∈ powerset s ↔ x.Sublist s := by
  rw [(powerset_perm s).mem_iff]
  exact List.mem_sublists'

/-- powerset of a duplicate-free list has no duplicates. -/
lemma powerset_nodup {α : Type} {s : List α} (h : s.Nodup) : (powerset s).Nodup :=
  (powerset_perm s).nodup_iff.mpr (List.nodup_sublists'.mpr h)

/-- powerset of an n-element list has 2 ^ n entries. -/
lemma powerset_length {α : Type} (s : List α) : (powerset s).length = 2 ^ s.length :=
  (powerset_perm s).length_eq.trans (List.length_sublists' s)

/-- Length of a flatMap is the sum of the inner lengths. -/
lemma flatMap_length {α β : Type} (l : List α) (f : α → List β) :
    (l.flatMap f).length = (l.map fun a => (f a).length).sum := by
  induction l with
  | nil => rfl
  | cons a rest ih => simp [List.flatMap_cons, ih]

/-- Set difference by an avoided head just keeps the head. -/
lemma setDiff_cons_of_not_mem {a : String} {l og : List String} (ha : a ∉ og) :
    setDiff (a :: l) og = a :: setDiff l og := by
  unfold setDiff
  rw [List.filter_cons]
  simp [ha]

/-- Removing the fresh head from both sides leaves the set difference. -/
lemma setDiff_cons_cons {a : String} {l og : List String} (ha : a ∉ l) :
    setDiff (a :: l) (a :: og) = setDiff l og := by
  unfold setDiff
  rw [List.filter_cons, if_neg (by simp)]
  refine List.filter_congr ?_
  intro n hn
  have hna : n ≠ a := fun h => ha (h ▸ hn)
  simp [hna]

/-- Over all subsets og of a duplicate-free list, the subsets of the
complement of og number 3 ^ n in total. -/
lemma sum_pow_setDiff : ∀ l : List String, l.Nodup →
    ((l.sublists').map fun og => 2 ^ (setDiff l og).length).sum = 3 ^ l.length := by
  intro l
  induction l with
  | nil => intro _; rfl
  | cons a rest ih =>
    intro hnd
    have ha : a ∉ rest := (List.nodup_cons.mp hnd).1
    have hrest : rest.Nodup := (List.nodup_cons.mp hnd).2
    rw [List.sublists'_cons, List.map_append, List.sum_append, List.map_map]
    have h1 : ((rest.sublists').map fun og => (2:ℕ) ^ (setDiff (a :: rest) og).length)
        = (rest.sublists').map fun og => 2 * 2 ^ (setDiff rest og).length := by
      apply List.map_congr_left
      intro og hog
      have hao : a ∉ og := fun h => ha ((List.mem_sublists'.mp hog).subset h)
      rw [setDiff_cons_of_not_mem hao, List.length_cons, pow_succ, Nat.mul_comm]
    have h2 : ((rest.sublists').map ((fun og => (2:ℕ) ^ (setDiff (a :: rest) og).length) ∘
          List.cons a))
        = (rest.sublists').map fun og => 2 ^ (setDiff rest og).length := by
      apply List.map_congr_left
      intro og hog
      show (2:ℕ) ^ (setDiff (a :: rest) (a :: og)).length = _
      rw [setDiff_cons_cons ha]
    rw [h1, h2, List.sum_map_mul_left, ih hrest, List.length_cons, pow_succ]
    ring

/-- The same count over the program's powerset enumeration. -/
lemma sum_pow_setDiff_powerset (ns : List String) (h : ns.Nodup) :
    ((powerset ns).map fun og => 2 ^ (setDiff ns og).length).sum = 3 ^ ns.length := by
  rw [((powerset_perm ns).map fun og => (2:ℕ) ^ (setDiff ns og).length).sum_eq]
  exact sum_pow_setDiff ns h

/-- Membership in the unfiltered enumeration of hypothesis triples. -/
lemma mem_allTriples {ns : List String} {t : Hyp} :
    t ∈ allTriples ns ↔
      t.1.Sublist ns ∧ t.2.1.Sublist ns ∧ t.2.2.Sublist (setDiff ns t.2.1) := by
  obtain ⟨ht, og, tg⟩ := t
  simp only [allTriples, List.mem_flatMap, List.mem_map, mem_powerset, Prod.mk.injEq]
  constructor
  · rintro ⟨a, hta, b, htb, c, htc, rfl, rfl, rfl⟩
    exact ⟨hta, htb, htc⟩
  · rintro ⟨hta, htb, htc⟩
    exact ⟨ht, hta, og, htb, tg, htc, rfl, rfl, rfl⟩

/-- The unfiltered enumeration has no duplicate triples. -/
lemma allTriples_nodup {ns : List String} (h : ns.Nodup) : (allTriples ns).Nodup := by
  unfold allTriples
  rw [List.nodup_flatMap]
  constructor
  · intro ht _
    rw [List.nodup_flatMap]
    constructor
    · intro og hog
      refine List.Nodup.map ?_ (powerset_nodup (h.filter _))
      intro x y hxy
      injection hxy with _ h2
      injection h2
    · refine ((powerset_nodup h).imp ?_)
      intro og og' hne x hx1 hx2
      simp only [List.mem_map] at hx1 hx2
      obtain ⟨c1, _, rfl⟩ := hx1
      obtain ⟨c2, _, he⟩ := hx2
      injection he with _ h2
      injection h2 with h2
      exact hne h2.symm
  · refine ((powerset_nodup h).imp ?_)
    intro ht ht' hne x hx1 hx2
    simp only [List.mem_flatMap, List.mem_map] at hx1 hx2
    obtain ⟨o1, _, c1, _, rfl⟩ := hx1
    obtain ⟨o2, _, c2, _, he⟩ := hx2
    injection he with h1 _
    exact hne h1.symm

/-- The unfiltered enumeration has exactly 2 ^ n · 3 ^ n triples. -/
lemma allTriples_length {ns : List String} (h : ns.Nodup) :
    (allTriples ns).length = 2 ^ ns.length * 3 ^ ns.length := by
  unfold allTriples
  rw [flatMap_length]
  have hin : ∀ ht : List String,
      ((powerset ns).flatMap fun og =>
        (powerset (setDiff ns og)).map fun tg => (ht, og, tg)).length = 3 ^ ns.length := by
    intro ht
    rw [flatMap_length]
    have hmap : ((powerset ns).map fun og =>
          ((powerset (setDiff ns og)).map fun tg => (ht, og, tg)).length)
        = (powerset ns).map fun og => 2 ^ (setDiff ns og).length := by
      apply List.map_congr_left
      intro og _
      rw [List.length_map, powerset_length]
    rw [hmap, sum_pow_setDiff_powerset ns h]
  have hconst : ((powerset ns).map fun ht =>
        ((powerset ns).flatMap fun og =>
          (powerset (setDiff ns og)).map fun tg => (ht, og, tg)).length)
      = (powerset ns).map fun _ => 3 ^ ns.length := by
    apply List.map_congr_left
    intro ht _
    exact hin ht
  rw [hconst, List.map_const', List.sum_replicate, smul_eq_mul, powerset_length]


/-- Adding into a gene bucket raises the gene total by the added mass. -/
lemma geneTotal_addGene (pp : PersonProb) (g : Nat) (p : ℚ) :
    geneTotal (addGene pp g p) = geneTotal pp + p := by
  unfold addGene
  split
  · simp only [geneTotal]; ring
  · split
    · simp only [geneTotal]; ring
    · simp only [geneTotal]; ring

/-- Adding into a trait bucket leaves the gene total unchanged. -/
lemma geneTotal_addTrait (pp : PersonProb) (t : Bool) (p : ℚ) :
    geneTotal (addTrait pp t p) = geneTotal pp := by
  unfold addTrait
  split <;> rfl

/-- Adding into a gene bucket leaves the trait total unchanged. -/
lemma traitTotal_addGene (pp : PersonProb) (g : Nat) (p : ℚ) :
    traitTotal (addGene pp g p) = traitTotal pp := by
  unfold addGene
  split
  · rfl
  · split <;> rfl

/-- Adding into a trait bucket raises the trait total by the added mass. -/
lemma traitTotal_addTrait (pp : PersonProb) (t : Bool) (p : ℚ) :
    traitTotal (addTrait pp t p) = traitTotal pp + p := by
  unfold addTrait
  split
  · simp only [traitTotal]; ring
  · simp only [traitTotal]; ring

/-- Every entry after folding update over a hypothesis list comes from an
entry of the starting table with both totals raised by the sum of all the
folded weights. -/
lemma foldl_update_totals (w : Hyp → ℚ) :
    ∀ (hs : List Hyp) (tbl : List (String × PersonProb))
      (np : String × PersonProb),
      np ∈ hs.foldl (fun t h => update t h.2.1 h.2.2 h.1 (w h)) tbl →
      ∃ pp0, (np.1, pp0) ∈ tbl ∧
        geneTotal np.2 = geneTotal pp0 + (hs.map w).sum ∧
        traitTotal np.2 = traitTotal pp0 + (hs.map w).sum := by
  intro hs
  induction hs with
  | nil =>
    intro tbl np hnp
    exact ⟨np.2, by simpa using hnp, by simp, by simp⟩
  | cons h rest ih =>
    intro tbl np hnp
    rw [List.foldl_cons] at hnp
    obtain ⟨pp1, hpp1, hg, htr⟩ := ih (update tbl h.2.1 h.2.2 h.1 (w h)) np hnp
    unfold update at hpp1
    rw [List.mem_map] at hpp1
    obtain ⟨e, he, heq⟩ := hpp1
    injection heq with h1 h2
    refine ⟨e.2, ?_, ?_, ?_⟩
    · rw [← h1]
      simpa using he
    · rw [hg, ← h2, geneTotal_addTrait, geneTotal_addGene, List.map_cons, List.sum_cons]
      ring
    · rw [htr, ← h2, traitTotal_addTrait, traitTotal_addGene, List.map_cons, List.sum_cons]
      ring

/-- Every entry of the accumulated table has both totals equal to the whole
accumulated mass: each admissible hypothesis contributes its joint
probability to exactly one gene bucket and one trait bucket per person. -/
lemma accumulate_totals (people : List (String × Person))
    (np : String × PersonProb) (hnp : np ∈ accumulate people) :
    geneTotal np.2 = totalMass people ∧ traitTotal np.2 = totalMass people := by
  obtain ⟨pp0, hpp0, hg, htr⟩ := foldl_update_totals
    (fun h => jointProbability people h.2.1 h.2.2 h.1) (hypotheses people)
    (initTable (names people)) np hnp
  have hz : pp0 = ⟨0, 0, 0, 0, 0⟩ := by
    unfold initTable at hpp0
    rw [List.mem_map] at hpp0
    obtain ⟨n, _, he⟩ := hpp0
    injection he with _ h2
    exact h2.symm
  subst hz
  have h0g : geneTotal ⟨0, 0, 0, 0, 0⟩ = 0 := by simp [geneTotal]
  have h0t : traitTotal ⟨0, 0, 0, 0, 0⟩ = 0 := by simp [traitTotal]
  rw [h0g] at hg
  rw [h0t] at htr
  rw [hg, htr]
  exact ⟨by rw [zero_add]; rfl, by rw [zero_add]; rfl⟩

/-- normalize reports an error exactly when some table entry has a zero
distribution total. -/
lemma normalize_error_iff (tbl : List (String × PersonProb)) :
    (∃ e, normalize tbl = Except.error e) ↔
      ∃ np ∈ tbl, geneTotal np.2 = 0 ∨ traitTotal np.2 = 0 := by
  induction tbl with
  | nil =>
    constructor
    · rintro ⟨e, he⟩
      cases he
    · rintro ⟨np, hm, _⟩
      cases hm
  | cons hd rest ih =>
    cases hnp : normalizePerson hd.2 with
    | error e =>
      have hcond : geneTotal hd.2 = 0 ∨ traitTotal hd.2 = 0 := by
        unfold normalizePerson at hnp
        split at hnp
        · assumption
        · cases hnp
      constructor
      · intro _
        exact ⟨hd, List.mem_cons_self hd rest, hcond⟩
      · intro _
        exact ⟨e, by simp [normalize, hnp]⟩
    | ok pp =>
      have hcond : ¬(geneTotal hd.2 = 0 ∨ traitTotal hd.2 = 0) := by
        unfold normalizePerson at hnp
        split at hnp
        · cases hnp
        · assumption
      cases hr : normalize rest with
      | error e =>
        constructor
        · intro _
          obtain ⟨np, hm, hz⟩ := ih.mp ⟨e, hr⟩
          exact ⟨np, List.mem_cons_of_mem hd hm, hz⟩
        · intro _
          exact ⟨e, by simp [normalize, hnp, hr]⟩
      | ok rest2 =>
        constructor
        · rintro ⟨e, he⟩
          simp [normalize, hnp, hr] at he
        · rintro ⟨np, hm, hz⟩
          rcases List.mem_cons.mp hm with h1 | h1
          · exact absurd (h1 ▸ hz) hcond
          · obtain ⟨e, he⟩ := ih.mpr ⟨np, h1, hz⟩
            rw [hr] at he
            cases he

/-- The admissible hypothesis list of the empty pedigree is the single
all-empty triple. -/
lemma hypotheses_nil : hypotheses [] = [([], [], [])] := rfl


/-- In a duplicate-free list every member has count exactly 1 (stated for
any lawful boolean equality, as used by List.count on tuples). -/
lemma count_eq_one_of_nodup_mem {α : Type} [BEq α] [LawfulBEq α]
    {l : List α} {a : α} (hnd : l.Nodup) (h : a ∈ l) : l.count a = 1 := by
  induction l with
  | nil => cases h
  | cons b rest ih =>
    rw [List.count_cons]
    rcases List.mem_cons.mp h with rfl | hm
    · have hz : rest.count a = 0 :=
        List.count_eq_zero.mpr (List.nodup_cons.mp hnd).1
      simp [hz]
    · have hba : ¬(b == a) = true := by
        intro hb
        exact (List.nodup_cons.mp hnd).1 (eq_of_beq hb ▸ hm)
      rw [ih (List.nodup_cons.mp hnd).2 hm]
      simp [hba]


/-- Both gene sets of an enumerated hypothesis are drawn from the names. -/
lemma mem_hypotheses_subsets {people : List (String × Person)} {h : Hyp}
    (hm : h ∈ hypotheses people) :
    (∀ x, x ∈ h.2.1 → x ∈ names people) ∧ (∀ x, x ∈ h.2.2 → x ∈ names people) := by
  unfold hypotheses at hm
  rw [List.mem_flatMap] at hm
  obtain ⟨ht, _, hin⟩ := hm
  by_cases hf : failsEvidence people ht
  · rw [if_pos hf] at hin
    cases hin
  · rw [if_neg hf] at hin
    rw [List.mem_flatMap] at hin
    obtain ⟨og, hog, hin2⟩ := hin
    rw [List.mem_map] at hin2
    obtain ⟨tg, htg, rfl⟩ := hin2
    constructor
    · intro x hx
      exact (mem_powerset.mp hog).subset hx
    · intro x hx
      have h1 := (mem_powerset.mp htg).subset hx
      unfold setDiff at h1
      exact List.mem_of_mem_filter h1

/-- A parent name lying in neither gene set is treated as gene count 0. -/
lemma parentGeneCount_eq_zero {x : String} {one_gene two_genes : List String}
    (h1 : x ∉ one_gene) (h2 : x ∉ two_genes) :
    parentGeneCount (some x) one_gene two_genes = 0 := by
  simp [parentGeneCount, optMem, h1, h2]

/-! ## Claims -/

/-- Claim C6: with mutation rate m = 0.01, pass_down gives 1−m / m for a
parent with two copies, m / 1−m for a parent with no copy, and exactly 0.5
both ways for a parent with one copy. -/
theorem pass_down_transmission_table :
    PROBS_mutation = 1/100 ∧
    pass_down 2 true = 1 - PROBS_mutation ∧
    pass_down 2 false = PROBS_mutation ∧
    pass_down 0 true = PROBS_mutation ∧
    pass_down 0 false = 1 - PROBS_mutation ∧
    pass_down 1 true = 1/2 ∧
    pass_down 1 false = 1/2 := by
  decide!

/-- Claim C10: for every gene count in {0, 1, 2} the transmit/not-transmit
pair returned by pass_down sums to 1, so it is a probability distribution. -/
theorem pass_down_complementary (g : Nat) (hg : g ≤ 2) :
    pass_down g true + pass_down g false = 1 := by
  interval_cases g <;> decide!

/-- Witness for C10 at gene count 1. -/
theorem pass_down_complementary_witness :
    pass_down 1 true + pass_down 1 false = 1 :=
  pass_down_complementary 1 (by decide)

/-- Claim C1 (failing-input evaluation): on the three-person pedigree under
the all-zero-genes, no-trait hypothesis, joint_probability returns
(0.96·0.99) · (0.9801·0.99) — the two parents' identical factors 0.96·0.99
collapse into a single element of the Python set — and not the product
(0.96·0.99) · (0.96·0.99) · (0.9801·0.99) with each person's factor entering
exactly once, as the claim states. -/
theorem joint_probability_parent_factor_collapses :
    jointProbability threePersonPed [] [] [] =
      (96/100 * (99/100)) * ((9801/10000) * (99/100)) ∧
    jointProbability threePersonPed [] [] [] ≠
      (96/100 * (99/100)) * (96/100 * (99/100)) * ((9801/10000) * (99/100)) := by
  decide!

/-- Claim C2: for a single founder with unknown trait, the full pipeline
(enumeration, accumulation, normalization) returns exactly the prior gene
distribution 0.01 / 0.03 / 0.96 (trait posterior 0.0329 / 0.9671). -/
theorem single_founder_posterior_is_prior :
    pipeline singleFounderPed =
      Except.ok [("p",
        { gene2 := 1/100, gene1 := 3/100, gene0 := 96/100,
          traitTrue := 329/10000, traitFalse := 9671/10000 })] := by
  decide!

/-- Claim C8 (counterexample): on the malformed half-specified pedigree the
computation does not report any validation failure — it runs inference to
completion and returns a normal probability table. -/
theorem half_specified_no_validation_failure :
    pipeline halfSpecifiedPed =
      Except.ok
        [("m", { gene2 := 1/100, gene1 := 3/100, gene0 := 96/100,
                 traitTrue := 329/10000, traitFalse := 9671/10000 }),
         ("c", { gene2 := 69/200000, gene1 := 4381/100000, gene0 := 191169/200000,
                 traitTrue := 343163/10000000, traitFalse := 9656837/10000000 })] := by
  decide!

/-- Claim C8 (amended): the code performs no pedigree validation and never
reports a failure for a malformed record. Inference runs to completion both
on a half-specified parent pair and on unresolvable parent references; an
absent (None) parent, and any parent name outside the pedigree, is treated
as a parent with gene count 0; and the only failure the computation can
ever report is the post-enumeration normalization division-by-zero (every
hypothesis filtered out), never a pre-enumeration validation error. -/
theorem malformed_pedigree_no_validation :
    (∃ t, pipeline halfSpecifiedPed = Except.ok t) ∧
    pipeline danglingPed =
      Except.ok [("c",
        { gene2 := 1/10000, gene1 := 99/5000, gene0 := 9801/10000,
          traitTrue := 10477/500000, traitFalse := 489523/500000 })] ∧
    (∀ one_gene two_genes : List String,
      parentGeneCount none one_gene two_genes = 0) ∧
    (∀ people (h : Hyp), h ∈ hypotheses people → ∀ x, x ∉ names people →
      parentGeneCount (some x) h.2.1 h.2.2 = 0) ∧
    (∀ people e, pipeline people = Except.error e → hypotheses people = []) := by
  refine ⟨⟨[("m", ⟨1/100, 3/100, 96/100, 329/10000, 9671/10000⟩),
            ("c", ⟨69/200000, 4381/100000, 191169/200000, 343163/10000000,
                   9656837/10000000⟩)], by decide!⟩,
          by decide!, fun og tg => rfl, ?_, ?_⟩
  · intro people h hm x hx
    have hsub := mem_hypotheses_subsets hm
    exact parentGeneCount_eq_zero (fun h1 => hx (hsub.1 x h1))
      (fun h2 => hx (hsub.2 x h2))
  · intro people e he
    by_contra hne
    have hmass : 0 < totalMass people := by
      refine List.sum_pos _ ?_ ?_
      · intro x hx
        rw [List.mem_map] at hx
        obtain ⟨hyp, _, rfl⟩ := hx
        exact jointProbability_pos people hyp.2.1 hyp.2.2 hyp.1
      · rw [ne_eq, List.map_eq_nil_iff]
        exact hne
    obtain ⟨np, hnp, hz⟩ := (normalize_error_iff (accumulate people)).mp ⟨e, he⟩
    have htot := accumulate_totals people np hnp
    rcases hz with hz | hz
    · rw [htot.1] at hz
      exact absurd hz (ne_of_gt hmass)
    · rw [htot.2] at hz
      exact absurd hz (ne_of_gt hmass)

/-- Witness for the amended C8: a dangling parent of an enumerated
hypothesis gets gene count 0, and a table on which the pipeline does error
has its whole hypothesis space filtered out. -/
theorem malformed_pedigree_no_validation_witness :
    parentGeneCount (some "x") [] [] = 0 ∧ hypotheses conflictPed = [] :=
  ⟨malformed_pedigree_no_validation.2.2.2.1 danglingPed ([], [], [])
      (by decide) "x" (by decide),
   malformed_pedigree_no_validation.2.2.2.2 conflictPed "division by zero"
      (by decide!)⟩

/-- Claim C9: joint_probability always returns a value in [0, 1], and the
value is exactly 1 precisely for the empty pedigree. -/
theorem joint_probability_unit_interval (people : List (String × Person))
    (one_gene two_genes have_trait : List String) :
    0 ≤ jointProbability people one_gene two_genes have_trait ∧
    jointProbability people one_gene two_genes have_trait ≤ 1 ∧
    (jointProbability people one_gene two_genes have_trait = 1 ↔ people = []) := by
  cases people with
  | nil =>
    have h1 : jointProbability [] one_gene two_genes have_trait = 1 := rfl
    exact ⟨by rw [h1]; exact zero_le_one, by rw [h1], by simp [h1]⟩
  | cons np rest =>
    have hb := factorSet_bounds (np :: rest) one_gene two_genes have_trait
    have hne := factorSet_ne_nil np rest one_gene two_genes have_trait
    rw [jointProbability_eq_prod]
    have hp := list_prod_pos _ fun q hq => (hb q hq).1
    have hl := list_prod_lt_one _ hne hb
    refine ⟨le_of_lt hp, le_of_lt hl, ?_, ?_⟩
    · intro h
      exact absurd h (ne_of_lt hl)
    · intro h
      cases h

/-- Claim C3: whenever the pipeline returns a table, every person's gene
distribution and trait distribution each sum to 1 within 1e-9 (in fact
exactly). -/
theorem normalized_distributions_sum_to_one (people : List (String × Person))
    (tbl : List (String × PersonProb)) (h : pipeline people = Except.ok tbl) :
    ∀ np ∈ tbl, |geneTotal np.2 - 1| ≤ 1/1000000000 ∧
      |traitTotal np.2 - 1| ≤ 1/1000000000 := by
  intro np hm
  have htot := normalize_ok_totals (accumulate people) tbl h np hm
  rw [htot.1, htot.2]
  norm_num

/-- Witness for C3 on the single-founder pedigree. -/
theorem normalized_distributions_sum_to_one_witness :
    |geneTotal ⟨1/100, 3/100, 96/100, 329/10000, 9671/10000⟩ - 1| ≤ 1/1000000000 ∧
    |traitTotal ⟨1/100, 3/100, 96/100, 329/10000, 9671/10000⟩ - 1| ≤ 1/1000000000 :=
  normalized_distributions_sum_to_one singleFounderPed
    [("p", ⟨1/100, 3/100, 96/100, 329/10000, 9671/10000⟩)] (by decide!)
    ("p", ⟨1/100, 3/100, 96/100, 329/10000, 9671/10000⟩) (by simp)


/-- Claim C4: before evidence filtering, the enumerator covers the full
hypothesis space exactly once — every triple (have_trait, one_gene,
two_genes) with two_genes drawn from the complement of one_gene appears
exactly once, and the space has 2 ^ n · 3 ^ n triples (3 ^ n
gene-assignments times 2 ^ n trait-assignments) for n people. -/
theorem hypothesis_space_complete (ns : List String) (hnd : ns.Nodup) :
    (∀ t : Hyp, t.1.Sublist ns → t.2.1.Sublist ns →
      t.2.2.Sublist (setDiff ns t.2.1) → (allTriples ns).count t = 1) ∧
    (allTriples ns).length = 2 ^ ns.length * 3 ^ ns.length := by
  refine ⟨?_, allTriples_length hnd⟩
  intro t h1 h2 h3
  exact count_eq_one_of_nodup_mem (allTriples_nodup hnd)
    (mem_allTriples.mpr ⟨h1, h2, h3⟩)

/-- Witness for C4 on a two-person universe. -/
theorem hypothesis_space_complete_witness :
    (allTriples ["a", "b"]).count (["a"], [], ["b"]) = 1 ∧
    (allTriples ["a", "b"]).length = 36 := by
  have h := hypothesis_space_complete ["a", "b"] (by decide)
  refine ⟨h.1 (["a"], [], ["b"]) (by decide) (by decide) (by decide), ?_⟩
  rw [h.2]
  decide

/-- Claim C5: every accumulated hypothesis respects the evidence — for every
person whose observed trait is recorded, the hypothesis's trait assignment
(membership in have_trait) equals the observed value; unknown-trait persons
impose no constraint (hypotheses is filtered only by failsEvidence). -/
theorem accumulated_hypotheses_respect_evidence (people : List (String × Person))
    (h : Hyp) (hm : h ∈ hypotheses people) :
    ∀ np ∈ people, ∀ b, np.2.trait = some b → decide (np.1 ∈ h.1) = b := by
  unfold hypotheses at hm
  rw [List.mem_flatMap] at hm
  obtain ⟨ht, hht, hin⟩ := hm
  by_cases hf : failsEvidence people ht
  · rw [if_pos hf] at hin
    cases hin
  · rw [if_neg hf] at hin
    rw [List.mem_flatMap] at hin
    obtain ⟨og, _, hin2⟩ := hin
    rw [List.mem_map] at hin2
    obtain ⟨tg, _, rfl⟩ := hin2
    intro np hnp b htr
    rw [Bool.not_eq_true] at hf
    unfold failsEvidence at hf
    rw [List.any_eq_false] at hf
    have hone := hf np hnp
    rw [htr] at hone
    rw [Bool.not_eq_true] at hone
    exact (bne_eq_false_iff_eq.mp hone).symm

/-- Witness for C5 on a one-person pedigree with observed trait true. -/
theorem accumulated_hypotheses_respect_evidence_witness :
    decide ("p" ∈ ["p"]) = true :=
  accumulated_hypotheses_respect_evidence [("p", ⟨none, none, some true⟩)]
    (["p"], [], []) (by decide) ("p", ⟨none, none, some true⟩) (by simp) true rfl

/-- Claim C7: normalize raises the division-by-zero error (Python's
ZeroDivisionError, embedded as Except.error rather than a NaN result)
exactly when some person's distribution total is zero, and the whole
pipeline raises it exactly when the admissible hypothesis list is empty,
i.e. when every hypothesis was filtered out by the evidence. -/
theorem normalization_failure_characterization :
    (∀ tbl, (∃ e, normalize tbl = Except.error e) ↔
      ∃ np ∈ tbl, geneTotal np.2 = 0 ∨ traitTotal np.2 = 0) ∧
    (∀ people, (∃ e, pipeline people = Except.error e) ↔ hypotheses people = []) := by
  refine ⟨normalize_error_iff, ?_⟩
  intro people
  constructor
  · rintro ⟨e, he⟩
    by_contra hne
    have hmass : 0 < totalMass people := by
      refine List.sum_pos _ ?_ ?_
      · intro x hx
        rw [List.mem_map] at hx
        obtain ⟨hyp, _, rfl⟩ := hx
        exact jointProbability_pos people hyp.2.1 hyp.2.2 hyp.1
      · rw [ne_eq, List.map_eq_nil_iff]
        exact hne
    obtain ⟨np, hnp, hz⟩ := (normalize_error_iff (accumulate people)).mp ⟨e, he⟩
    have htot := accumulate_totals people np hnp
    rcases hz with hz | hz
    · rw [htot.1] at hz
      exact absurd hz (ne_of_gt hmass)
    · rw [htot.2] at hz
      exact absurd hz (ne_of_gt hmass)
  · intro hnil
    have hne : people ≠ [] := by
      intro hp0
      rw [hp0, hypotheses_nil] at hnil
      cases hnil
    obtain ⟨np, rest, hp⟩ := List.exists_cons_of_ne_nil hne
    have hacc : accumulate people = initTable (names people) := by
      unfold accumulate
      rw [hnil]
      rfl
    show ∃ e, normalize (accumulate people) = Except.error e
    refine (normalize_error_iff (accumulate people)).mpr ?_
    refine ⟨(np.1, ⟨0, 0, 0, 0, 0⟩), ?_, Or.inl (by simp [geneTotal])⟩
    rw [hacc, hp]
    unfold initTable names
    rw [List.map_cons, List.map_cons]
    exact List.mem_cons_self _ _

end Heredity
